import Mathlib

/-
Formal model of `src/stock_sceening/find_daily_limit_up.py`, the limit-up
screening engine (board classification, limit-price computation, and
sealed/broken classification of daily price bars).

Conventions of the shallow embedding:
* A pandas DataFrame of daily bars is a `List Bar` of rows.
* Prices are exact decimal amounts recorded in integer cents (`ℤ`): a price
  of 10.95 yuan is the integer 1095.  `round(x, 2)` on such exact decimals
  is rounding to integer cents, modelled by `roundHalfEvenDiv` (round half
  to even, the rule of Python's `round` on decimal values);
  `roundHalfEvenQ`/`round2Q` restate the same rounding over `ℚ` at the yuan
  level and `roundHalfEvenQ_div` proves the two presentations agree.
* A missing value (pandas NaN in the `prev_close`/`limit_price` columns) is
  `Option.none`; pandas comparisons against NaN are false, which
  `limit_conditions` mirrors.
* `trade_date` is a day number (`ℕ`).  `sort_values(['ts_code','trade_date'])`
  is modelled by a stable sort by that lexicographic key (`sort_values`,
  an insertion sort); on inputs without duplicate keys — the only inputs the
  spec admits — every correct sort produces this order.
* String helpers (`strLtb`, `startsWithL`, `containsSTL`) are structural
  recursions mirroring Python's lexicographic string compare,
  `str.startswith`, and the case-insensitive substring test
  `.str.contains('ST', case=False)`.
-/

/-! ## String helpers -/

/-- Lexicographic strict comparison of character lists, mirroring Python's
string `<` (code-point order), written structurally so it computes. -/
def strLtb : List Char → List Char → Bool
  | [], [] => false
  | [], _ :: _ => true
  | _ :: _, [] => false
  | a :: as, b :: bs => if a < b then true else if b < a then false else strLtb as bs

/-- Does the first character list start with the second?  Mirrors Python's
`str.startswith`. -/
def startsWithL : List Char → List Char → Bool
  | _, [] => true
  | [], _ :: _ => false
  | a :: as, b :: bs => a == b && startsWithL as bs

/-- `s.startswith(pat)` on strings. -/
def pyStartsWith (s pat : String) : Bool := startsWithL s.data pat.data

/-- Two adjacent characters spelling "ST" up to case. -/
def isSTpair (a b : Char) : Bool := a.toUpper == 'S' && b.toUpper == 'T'

/-- Case-insensitive substring test for "ST" on a character list, mirroring
`.str.contains('ST', case=False)`. -/
def containsSTL : List Char → Bool
  | [] => false
  | a :: rest =>
    (match rest with
     | [] => false
     | b :: _ => isSTpair a b) || containsSTL rest

/-- Does the identifier contain "ST" (case-insensitively)?  The engine
excludes such special-treatment securities. -/
def containsST (s : String) : Bool := containsSTL s.data

/-! ## Board classification (source: `get_stock_type` inside
`calculate_limit_price`) -/

/-- Source `get_stock_type`: prefix-based board detection.  `688`/`689` is
the STAR market ("kcb"), `300` ChiNext ("cyb"), the enumerated prefixes the
Beijing exchange / NEEQ ("bse"), everything else the main board ("main"). -/
def get_stock_type (ts_code : String) : String :=
  if pyStartsWith ts_code "688" || pyStartsWith ts_code "689" then "kcb"
  else if pyStartsWith ts_code "300" then "cyb"
  else if ["430", "831", "832", "833", "834", "835", "836", "837", "838",
           "839", "870", "871", "872", "873", "874"].any
          (fun q => pyStartsWith ts_code q) then "bse"
  else "main"

/-- The rate selection inside the source's `calc_limit_price`, expressed in
integer percent: `kcb`/`cyb` ↦ 20 (rate 0.20), `bse` ↦ 30 (rate 0.30),
anything else ↦ 10 (rate 0.10). -/
def limit_rate_pct (stock_type : String) : ℤ :=
  if stock_type == "kcb" || stock_type == "cyb" then 20
  else if stock_type == "bse" then 30
  else 10

/-! ## Rounding (`round(x, 2)` of Python on exact decimals) -/

/-- Round `n / d` (for `d > 0`, using Euclidean `/` and `%`, which agree
with floor division for a positive divisor) to the nearest integer, ties to
the even neighbour.  This is Python's `round` on exact decimal values. -/
def roundHalfEvenDiv (n d : ℤ) : ℤ :=
  if 2 * (n % d) < d then n / d
  else if d < 2 * (n % d) then n / d + 1
  else if (n / d) % 2 = 0 then n / d else n / d + 1

/-- The same rounding stated over `ℚ`: nearest integer, ties to even. -/
def roundHalfEvenQ (x : ℚ) : ℤ :=
  if x - ⌊x⌋ < 1 / 2 then ⌊x⌋
  else if (1 / 2 : ℚ) < x - ⌊x⌋ then ⌊x⌋ + 1
  else if ⌊x⌋ % 2 = 0 then ⌊x⌋ else ⌊x⌋ + 1

/-- `round(x, 2)` over `ℚ`: round half to even at two decimal digits. -/
def round2Q (x : ℚ) : ℚ := (roundHalfEvenQ (100 * x) : ℚ) / 100

/-! ## Data model -/

/-- One input row of the panel: columns
`{ts_code, trade_date, open, close, high, low}`.  Prices are exact decimal
cents; the `open` column is called `open_` because `open` is reserved. -/
structure Bar where
  ts_code : String
  trade_date : ℕ
  open_ : ℤ
  close : ℤ
  high : ℤ
  low : ℤ
deriving DecidableEq

/-- A bar after the `prev_close` column assignment (`NaN` = `none`). -/
structure BarPrev extends Bar where
  prev_close : Option ℤ
deriving DecidableEq

/-- A bar after the `limit_price` column assignment (`NaN` = `none`). -/
structure BarLimit extends BarPrev where
  limit_price : Option ℤ
deriving DecidableEq

/-- One output row of `identify_limit_stocks`: the source's
`result_columns = ['ts_code', 'trade_date', 'open', 'close', 'high', 'low',
'涨停价', 'limit_type']`; the `涨停价` column (a copy of `limit_price`) is
the field `limit_price` here. -/
structure LimitRow where
  ts_code : String
  trade_date : ℕ
  open_ : ℤ
  close : ℤ
  high : ℤ
  low : ℤ
  limit_price : Option ℤ
  limit_type : String
deriving DecidableEq

/-! ## Sorting by `['ts_code', 'trade_date']` -/

/-- The sort key order of `sort_values(['ts_code', 'trade_date'])`:
lexicographic on the pair. -/
def barLE (a b : Bar) : Bool :=
  strLtb a.ts_code.data b.ts_code.data ||
    (a.ts_code == b.ts_code && decide (a.trade_date ≤ b.trade_date))

/-- `barLE` as a relation, for the sorting lemmas. -/
def barLEr (a b : Bar) : Prop := barLE a b = true

instance : DecidableRel barLEr := fun a b => instDecidableEqBool (barLE a b) true

/-- `stock_data.sort_values(['ts_code', 'trade_date'])`, modelled by a
stable sort by the lexicographic key. -/
def sort_values (l : List Bar) : List Bar := l.insertionSort barLEr

/-! ## The limit-price pipeline (source: `calculate_limit_price`) -/

/-- The `groupby('ts_code')['close'].shift(1)` column assignment on the
sorted frame: each row's `prev_close` is the `close` of the nearest earlier
row with the same `ts_code`; the accumulator maps each code to the last
close seen for it. -/
def shiftPrev (last : String → Option ℤ) : List Bar → List BarPrev
  | [] => []
  | b :: rest =>
    { toBar := b, prev_close := last b.ts_code } ::
      shiftPrev (fun c => if c = b.ts_code then some b.close else last c) rest

/-- Source row function `calc_limit_price`: `NaN` for a missing
`prev_close`, otherwise `round(prev_close * (1 + limit_rate), 2)` — in
cents, half-even rounding of `prev_close * (100 + pct) / 100`. -/
def calc_limit_price (row : BarPrev) : Option ℤ :=
  match row.prev_close with
  | none => none
  | some pc =>
    some (roundHalfEvenDiv (pc * (100 + limit_rate_pct (get_stock_type row.ts_code))) 100)

/-- Source `calculate_limit_price`: sort by `(ts_code, trade_date)`, assign
the `prev_close` shift column, then apply `calc_limit_price` row-wise. -/
def calculate_limit_price (stock_data : List Bar) : List BarLimit :=
  (shiftPrev (fun _ => none) (sort_values stock_data)).map
    (fun row => { toBarPrev := row, limit_price := calc_limit_price row })

/-! ## Event detection (source: `identify_limit_stocks`) -/

/-- The source's `limit_conditions`:
`high >= limit_price | close >= limit_price`.  A pandas comparison against
NaN is false, so a row without a limit price never qualifies. -/
def limit_conditions (row : BarLimit) : Bool :=
  match row.limit_price with
  | none => false
  | some lp => decide (row.high ≥ lp) || decide (row.close ≥ lp)

/-- Source row function `classify_limit`: `close >= limit_price` is a
sealed limit ("封死涨停"), otherwise a broken limit ("炸板"); a NaN
comparison is false, giving the else branch. -/
def classify_limit (row : BarLimit) : String :=
  match row.limit_price with
  | none => "炸板"
  | some lp => if row.close ≥ lp then "封死涨停" else "炸板"

/-- Building one output row from a qualifying decorated bar together with
its `limit_type` value (the source's `limit_stocks['limit_type']`
assignment, the `涨停价` copy of `limit_price`, and the `result_columns`
selection). -/
def rowOfTyped (rt : BarLimit × String) : LimitRow :=
  { ts_code := rt.1.ts_code, trade_date := rt.1.trade_date, open_ := rt.1.open_,
    close := rt.1.close, high := rt.1.high, low := rt.1.low,
    limit_price := rt.1.limit_price, limit_type := rt.2 }

/-- One output row of a qualifying decorated bar. -/
def mkLimitRow (row : BarLimit) : LimitRow := rowOfTyped (row, classify_limit row)

/-- Source `identify_limit_stocks`: drop ST securities, compute limit
prices, keep only the rows satisfying `limit_conditions`, attach
`limit_type`, and select the result columns.  Non-qualifying rows do not
appear in the output. -/
def identify_limit_stocks (stock_data : List Bar) : List LimitRow :=
  ((calculate_limit_price (stock_data.filter (fun b => !containsST b.ts_code))).filter
      limit_conditions).map mkLimitRow

/-- Source `analyze_specific_date`: restrict the panel to one date, then
run `identify_limit_stocks` on the restricted rows. -/
def analyze_specific_date (df : List Bar) (target_date : ℕ) : List LimitRow :=
  identify_limit_stocks (df.filter (fun b => decide (b.trade_date = target_date)))

/-! ## The spec-side board classifier (for the refinement claims) -/

/-- The four board categories of the spec's data model. -/
inductive BoardCategory where
  | MAIN
  | CHINEXT
  | STAR
  | NEEQ
deriving DecidableEq

/-- The spec's `BoardClassifier.classify`, written from the spec's words
(longest-meaningful-prefix precedence: STAR `688`/`689`, then CHINEXT
`300`, then the enumerated NEEQ set, else MAIN) as the second definition of
the refinement comparison with `get_stock_type`. -/
def specClassify (id : String) : BoardCategory :=
  if pyStartsWith id "688" || pyStartsWith id "689" then .STAR
  else if pyStartsWith id "300" then .CHINEXT
  else if ["430", "831", "832", "833", "834", "835", "836", "837", "838",
           "839", "870", "871", "872", "873", "874"].any
          (fun q => pyStartsWith id q) then .NEEQ
  else .MAIN

/-- The spec's fixed lookup table
`rate_for = {STAR: 0.20, CHINEXT: 0.20, NEEQ: 0.30, MAIN: 0.10}`. -/
def rate_for : BoardCategory → ℚ
  | .STAR => 20 / 100
  | .CHINEXT => 20 / 100
  | .NEEQ => 30 / 100
  | .MAIN => 10 / 100

/-- The source's name for each board category. -/
def boardName : BoardCategory → String
  | .STAR => "kcb"
  | .CHINEXT => "cyb"
  | .NEEQ => "bse"
  | .MAIN => "main"

/-! ## A heap model of the pandas frames

The pipeline's pandas operations either return a fresh DataFrame (boolean
mask indexing, `sort_values` without `inplace`, `.copy()`, column
selection) or assign a column in place (`df['col'] = ...`).  To reason
about mutation of the caller's frame we run the pipeline over an explicit
heap of frames: allocation appends, in-place column assignment overwrites
one heap cell.  The cell contents reuse the pure row-level functions
above. -/

/-- A DataFrame at one of the shapes the pipeline produces. -/
inductive PFrame where
  | raw (rows : List Bar)
  | shifted (rows : List BarPrev)
  | priced (rows : List BarLimit)
  | typed (rows : List (BarLimit × String))
  | table (rows : List LimitRow)
deriving DecidableEq

/-- Read the frame stored at a heap reference. -/
def getFrame (h : List PFrame) (i : ℕ) : PFrame := (h[i]?).getD (PFrame.raw [])

/-- Allocate a fresh frame, returning its reference. -/
def halloc (f : PFrame) (h : List PFrame) : ℕ × List PFrame := (h.length, h ++ [f])

/-- Overwrite the frame at a reference (an in-place column assignment). -/
def hwrite (i : ℕ) (f : PFrame) (h : List PFrame) : List PFrame := h.set i f

/-- `stock_data[~stock_data['ts_code'].str.contains('ST', case=False)]`:
boolean-mask indexing returns a new frame.  On a frame shape the traced
program never reaches, the frame is returned unchanged. -/
def maskNotST : PFrame → PFrame
  | .raw rows => .raw (rows.filter (fun b => !containsST b.ts_code))
  | f => f

/-- `stock_data.sort_values(['ts_code', 'trade_date'])`: returns a new
frame (no `inplace`). -/
def sortValuesF : PFrame → PFrame
  | .raw rows => .raw (sort_values rows)
  | f => f

/-- `stock_data['prev_close'] = stock_data.groupby('ts_code')['close'].shift(1)`:
the column content written by the in-place assignment. -/
def assignPrevClose : PFrame → PFrame
  | .raw rows => .shifted (shiftPrev (fun _ => none) rows)
  | f => f

/-- `stock_data['limit_price'] = stock_data.apply(calc_limit_price, axis=1)`:
the column content written by the in-place assignment. -/
def assignLimitPrice : PFrame → PFrame
  | .shifted rows =>
    .priced (rows.map (fun row => { toBarPrev := row, limit_price := calc_limit_price row }))
  | f => f

/-- `limit_stocks = stock_data[limit_conditions].copy()`: mask indexing
plus `.copy()` returns a new frame. -/
def maskLimitCopy : PFrame → PFrame
  | .priced rows => .priced (rows.filter limit_conditions)
  | f => f

/-- `limit_stocks['limit_type'] = limit_stocks.apply(classify_limit, axis=1)`:
the column content written by the in-place assignment. -/
def assignLimitType : PFrame → PFrame
  | .priced rows => .typed (rows.map (fun row => (row, classify_limit row)))
  | f => f

/-- The `涨停价` column copy together with `limit_stocks[result_columns]`:
column selection returns a new frame. -/
def selectResultColumns : PFrame → PFrame
  | .typed rows => .table (rows.map rowOfTyped)
  | f => f

/-- `identify_limit_stocks` (with the body of `calculate_limit_price`
inlined) traced over the frame heap, one heap action per pandas
operation of the source. -/
def identify_limit_stocksProg (input : ℕ) (h : List PFrame) : ℕ × List PFrame :=
  let a1 := halloc (maskNotST (getFrame h input)) h
  let a2 := halloc (sortValuesF (getFrame a1.2 a1.1)) a1.2
  let h3 := hwrite a2.1 (assignPrevClose (getFrame a2.2 a2.1)) a2.2
  let h4 := hwrite a2.1 (assignLimitPrice (getFrame h3 a2.1)) h3
  let a3 := halloc (maskLimitCopy (getFrame h4 a2.1)) h4
  let h6 := hwrite a3.1 (assignLimitType (getFrame a3.2 a3.1)) a3.2
  let a4 := halloc (selectResultColumns (getFrame h6 a3.1)) h6
  (a4.1, a4.2)

/-! ## Concrete inputs used by the boundary examples and witnesses -/

/-- A main-board bar: day 1, all prices 10.00 (`prev_close` for day 2). -/
def exBase : Bar :=
  { ts_code := "000001", trade_date := 1, open_ := 1000, close := 1000, high := 1000, low := 1000 }

/-- Day 2, close 11.00 at the limit price: a sealed limit. -/
def exSealedBar : Bar :=
  { ts_code := "000001", trade_date := 2, open_ := 1050, close := 1100, high := 1100, low := 1040 }

/-- Day 2, high 11.00 but close 10.95: a broken limit. -/
def exBrokenBar : Bar :=
  { ts_code := "000001", trade_date := 2, open_ := 1050, close := 1095, high := 1100, low := 1040 }

/-- Day 2, high 10.99 below the limit price 11.00: no event. -/
def exNoneBar : Bar :=
  { ts_code := "000001", trade_date := 2, open_ := 1050, close := 1080, high := 1099, low := 1040 }

/-- The output row the engine produces for `exSealedBar` after `exBase`. -/
def exSealedRow : LimitRow :=
  { ts_code := "000001", trade_date := 2, open_ := 1050, close := 1100, high := 1100,
    low := 1040, limit_price := some 1100, limit_type := "封死涨停" }

/-- The output row the engine produces for `exBrokenBar` after `exBase`. -/
def exBrokenRow : LimitRow :=
  { ts_code := "000001", trade_date := 2, open_ := 1050, close := 1095, high := 1100,
    low := 1040, limit_price := some 1100, limit_type := "炸板" }

/-- The decorated row of `exSealedBar` inside `calculate_limit_price
[exBase, exSealedBar]`. -/
def exRow2 : BarLimit :=
  { ts_code := "000001", trade_date := 2, open_ := 1050, close := 1100, high := 1100,
    low := 1040, prev_close := some 1000, limit_price := some 1100 }

/-- The decorated row of `exBase` inside `calculate_limit_price
[exBase, exSealedBar]`: first bar of its instrument. -/
def exRow1 : BarLimit :=
  { ts_code := "000001", trade_date := 1, open_ := 1000, close := 1000, high := 1000,
    low := 1000, prev_close := none, limit_price := none }

/-- An ST (special-treatment) security bar, excluded by the engine. -/
def stBar : Bar :=
  { ts_code := "ST0001", trade_date := 1, open_ := 1000, close := 1000, high := 1000, low := 1000 }

/-- A batch with the day-2 bar duplicated: the same instrument carries two
bars with the same `trade_date`. -/
def dupBatch : List Bar := [exBase, exSealedBar, exSealedBar]

/-- A bar whose `low` price is negative (non-positive): malformed input
under the spec's value rules. -/
def negBar : Bar :=
  { ts_code := "000001", trade_date := 1, open_ := 1000, close := 1000, high := 1000, low := -500 }

/-- A batch containing a non-positive price. -/
def negBatch : List Bar := [negBar, exSealedBar]

/-- A single-date panel with two distinct instruments. -/
def twoCodes : List Bar :=
  [{ ts_code := "000001", trade_date := 5, open_ := 1000, close := 1100, high := 1100, low := 1000 },
   { ts_code := "600000", trade_date := 5, open_ := 2000, close := 2200, high := 2200, low := 2000 }]

/-- A one-frame heap holding the two-bar example panel. -/
def c10Heap : List PFrame := [PFrame.raw [exBase, exSealedBar]]

/-- The spec example: instrument `688001` (STAR) with `prev_close = 50.00`. -/
def exStarPrev : BarPrev :=
  { ts_code := "688001", trade_date := 2, open_ := 0, close := 0, high := 0, low := 0,
    prev_close := some 5000 }

/-- The spec example: instrument `831010` (NEEQ) with `prev_close = 20.00`. -/
def exNeeqPrev : BarPrev :=
  { ts_code := "831010", trade_date := 2, open_ := 0, close := 0, high := 0, low := 0,
    prev_close := some 2000 }

/-! ## Order facts for the sort key -/

theorem strLtb_irrefl : ∀ x : List Char, strLtb x x = false
  | [] => rfl
  | a :: as => by simp [strLtb, lt_irrefl a, strLtb_irrefl as]

theorem strLtb_trans {x y z : List Char} (h1 : strLtb x y = true)
    (h2 : strLtb y z = true) : strLtb x z = true := by
  induction x generalizing y z with
  | nil =>
    cases y with
    | nil => simp [strLtb] at h1
    | cons b bs =>
      cases z with
      | nil => simp [strLtb] at h2
      | cons c cs => simp [strLtb]
  | cons a as ih =>
    cases y with
    | nil => simp [strLtb] at h1
    | cons b bs =>
      cases z with
      | nil => simp [strLtb] at h2
      | cons c cs =>
        simp only [strLtb] at h1 h2 ⊢
        by_cases hab : a < b
        · by_cases hbc : b < c
          · simp [lt_trans hab hbc]
          · by_cases hcb : c < b
            · simp [hbc, hcb] at h2
            · have hbceq : b = c := le_antisymm (not_lt.mp hcb) (not_lt.mp hbc)
              simp [hbceq ▸ hab]
        · by_cases hba : b < a
          · simp [hab, hba] at h1
          · have habeq : a = b := le_antisymm (not_lt.mp hba) (not_lt.mp hab)
            simp only [hab, if_false, hba, if_false] at h1
            by_cases hbc : b < c
            · simp [habeq ▸ hbc]
            · by_cases hcb : c < b
              · simp [hbc, hcb] at h2
              · simp only [hbc, if_false, hcb, if_false] at h2
                have hac : ¬ a < c := habeq ▸ hbc
                have hca : ¬ c < a := habeq ▸ hcb
                simp [hac, hca, ih h1 h2]

theorem eq_of_strLtb_false {x y : List Char} (h1 : strLtb x y = false)
    (h2 : strLtb y x = false) : x = y := by
  induction x generalizing y with
  | nil =>
    cases y with
    | nil => rfl
    | cons b bs => simp [strLtb] at h1
  | cons a as ih =>
    cases y with
    | nil => simp [strLtb] at h2
    | cons b bs =>
      simp only [strLtb] at h1 h2
      by_cases hab : a < b
      · simp [hab] at h1
      · by_cases hba : b < a
        · simp [hba, hab] at h2
        · have habeq : a = b := le_antisymm (not_lt.mp hba) (not_lt.mp hab)
          simp only [hab, if_false, hba, if_false] at h1 h2
          rw [habeq, ih h1 h2]

instance : IsTotal Bar barLEr := by
  constructor
  intro a b
  unfold barLEr barLE
  by_cases h1 : strLtb a.ts_code.data b.ts_code.data = true
  · left; simp [h1]
  · by_cases h2 : strLtb b.ts_code.data a.ts_code.data = true
    · right; simp [h2]
    · have he : a.ts_code.data = b.ts_code.data :=
        eq_of_strLtb_false (Bool.not_eq_true _ ▸ h1) (Bool.not_eq_true _ ▸ h2)
      have he' : a.ts_code = b.ts_code := by
        cases ha : a.ts_code with
        | mk da => cases hb : b.ts_code with
          | mk db => simp only [ha, hb] at he; rw [he]
      rcases Nat.le_total a.trade_date b.trade_date with h | h
      · left; simp [he', h]
      · right; simp [he'.symm, h]

instance : IsTrans Bar barLEr := by
  constructor
  intro a b c hab hbc
  unfold barLEr barLE at hab hbc ⊢
  simp only [Bool.or_eq_true, Bool.and_eq_true, beq_iff_eq, decide_eq_true_eq] at hab hbc ⊢
  rcases hab with h1 | ⟨he1, hd1⟩
  · rcases hbc with h2 | ⟨he2, hd2⟩
    · exact Or.inl (strLtb_trans h1 h2)
    · exact Or.inl (he2 ▸ h1)
  · rcases hbc with h2 | ⟨he2, hd2⟩
    · exact Or.inl (he1 ▸ h2)
    · exact Or.inr ⟨he1.trans he2, le_trans hd1 hd2⟩

/-! ## Helper lemmas about the pipeline -/

theorem shiftPrev_map_toBar (last : String → Option ℤ) (l : List Bar) :
    (shiftPrev last l).map (fun r => r.toBar) = l := by
  induction l generalizing last with
  | nil => rfl
  | cons b t ih => simp [shiftPrev, ih]

theorem length_shiftPrev (last : String → Option ℤ) (l : List Bar) :
    (shiftPrev last l).length = l.length := by
  have h := congrArg List.length (shiftPrev_map_toBar last l)
  simpa using h

theorem toBar_mem_of_mem_shiftPrev {last : String → Option ℤ} {l : List Bar}
    {r : BarPrev} (h : r ∈ shiftPrev last l) : r.toBar ∈ l := by
  have h2 := List.mem_map_of_mem (fun r : BarPrev => r.toBar) h
  rwa [shiftPrev_map_toBar] at h2

theorem shiftPrev_congr {l : List Bar} {f g : String → Option ℤ}
    (h : ∀ b ∈ l, f b.ts_code = g b.ts_code) : shiftPrev f l = shiftPrev g l := by
  induction l generalizing f g with
  | nil => rfl
  | cons b t ih =>
    simp only [shiftPrev]
    rw [h b (by simp)]
    congr 1
    apply ih
    intro x hx
    by_cases hc : x.ts_code = b.ts_code
    · simp [hc]
    · simp [hc, h x (by simp [hx])]

theorem shiftPrev_filter_code (c : String) :
    ∀ (l : List Bar) (last : String → Option ℤ),
      (shiftPrev last l).filter (fun r => decide (r.ts_code = c)) =
        shiftPrev last (l.filter (fun b => decide (b.ts_code = c)))
  | [], _ => rfl
  | b :: t, last => by
    by_cases hc : b.ts_code = c
    · simp only [shiftPrev, List.filter_cons, hc]
      rw [shiftPrev_filter_code c t]
      simp [shiftPrev, hc]
    · simp only [shiftPrev, List.filter_cons]
      have hb1 : (decide (({ toBar := b, prev_close := last b.ts_code } : BarPrev).ts_code = c)) = false := by
        simp [hc]
      have hb2 : (decide (b.ts_code = c)) = false := by simp [hc]
      rw [hb1]
      simp only [hb2, Bool.false_eq_true, if_false]
      rw [shiftPrev_filter_code c t]
      apply shiftPrev_congr
      intro x hx
      have hxc : x.ts_code = c := by
        have h2 := (List.mem_filter.mp hx).2
        simpa using h2
      rw [hxc, if_neg (fun h => hc h.symm)]

theorem orderedInsert_all_le {a : Bar} :
    ∀ {M : List Bar}, (∀ x ∈ M, barLEr a x) → M.orderedInsert barLEr a = a :: M
  | [], _ => rfl
  | c :: M', h => by
    have hc : barLEr a c := h c (by simp)
    simp [List.orderedInsert, hc]

theorem filter_orderedInsert_neg (p : Bar → Bool) {a : Bar} (ha : p a = false) :
    ∀ L : List Bar, (L.orderedInsert barLEr a).filter p = L.filter p
  | [] => by simp [List.orderedInsert, ha]
  | b :: L' => by
    by_cases hab : barLEr a b
    · simp [List.orderedInsert, hab, List.filter_cons, ha]
    · by_cases hb : p b
      · simp [List.orderedInsert, hab, List.filter_cons, hb,
          filter_orderedInsert_neg p ha L']
      · simp [List.orderedInsert, hab, List.filter_cons, hb,
          filter_orderedInsert_neg p ha L']

theorem filter_orderedInsert_pos (p : Bar → Bool) {a : Bar} (ha : p a = true) :
    ∀ L : List Bar, L.Sorted barLEr →
      (L.orderedInsert barLEr a).filter p = (L.filter p).orderedInsert barLEr a
  | [], _ => by simp [List.orderedInsert, ha]
  | b :: L', hs => by
    have hsL' : L'.Sorted barLEr := hs.of_cons
    have hball : ∀ x ∈ L', barLEr b x := (List.sorted_cons.mp hs).1
    by_cases hab : barLEr a b
    · by_cases hb : p b
      · simp [List.orderedInsert, hab, List.filter_cons, ha, hb]
      · have hall : ∀ x ∈ L'.filter p, barLEr a x := fun x hx =>
          IsTrans.trans a b x hab (hball x (List.mem_of_mem_filter hx))
        simp [List.orderedInsert, hab, List.filter_cons, ha, hb, orderedInsert_all_le hall]
    · by_cases hb : p b
      · simp [List.orderedInsert, hab, List.filter_cons, hb,
          filter_orderedInsert_pos p ha L' hsL']
      · simp [List.orderedInsert, hab, List.filter_cons, hb,
          filter_orderedInsert_pos p ha L' hsL']

theorem filter_insertionSort (p : Bar → Bool) :
    ∀ l : List Bar, (l.insertionSort barLEr).filter p = (l.filter p).insertionSort barLEr
  | [] => rfl
  | a :: l => by
    by_cases ha : p a = true
    · simp only [List.insertionSort, List.filter_cons, ha, if_pos]
      rw [filter_orderedInsert_pos p ha _ (List.sorted_insertionSort barLEr l),
        filter_insertionSort p l]
    · have ha' : p a = false := by simpa using ha
      simp only [List.insertionSort, List.filter_cons, ha', Bool.false_eq_true, if_false]
      rw [filter_orderedInsert_neg p ha' _, filter_insertionSort p l]

theorem mem_calculate_limit_price {X : List Bar} {s : BarLimit}
    (h : s ∈ calculate_limit_price X) :
    s.toBar ∈ X ∧ s.limit_price = calc_limit_price s.toBarPrev := by
  unfold calculate_limit_price at h
  rcases List.mem_map.mp h with ⟨row, hrow, hs⟩
  have hmem : row.toBar ∈ sort_values X := toBar_mem_of_mem_shiftPrev hrow
  have hperm := List.perm_insertionSort barLEr X
  constructor
  · rw [← hs]
    exact hperm.mem_iff.mp hmem
  · rw [← hs]

theorem mem_identify {bars : List Bar} {r : LimitRow}
    (h : r ∈ identify_limit_stocks bars) :
    ∃ s : BarLimit,
      s ∈ calculate_limit_price (bars.filter (fun b => !containsST b.ts_code)) ∧
        limit_conditions s = true ∧ r = mkLimitRow s := by
  unfold identify_limit_stocks at h
  rcases List.mem_map.mp h with ⟨s, hs, hr⟩
  exact ⟨s, (List.mem_filter.mp hs).1, (List.mem_filter.mp hs).2, hr.symm⟩

theorem barLEr_same_code {x y : Bar} (h : x.ts_code = y.ts_code) :
    barLEr x y ↔ x.trade_date ≤ y.trade_date := by
  unfold barLEr barLE
  rw [h]
  simp [strLtb_irrefl]

theorem shiftPrev_prev_none_of_min {b : Bar} :
    ∀ (l : List Bar) (last : String → Option ℤ),
      last b.ts_code = none →
      l.Sorted barLEr →
      l.count b ≤ 1 →
      (∀ x ∈ l, x.ts_code = b.ts_code → x = b ∨ b.trade_date < x.trade_date) →
      ∀ r ∈ shiftPrev last l, r.toBar = b → r.prev_close = none
  | [], _, _, _, _, _ => by
    intro r hr
    simp [shiftPrev] at hr
  | a :: t, last, hlast, hs, hcount, hmin => by
    intro r hr hrb
    rw [shiftPrev] at hr
    rcases List.mem_cons.mp hr with hhead | htail
    · have hab : a = b := by
        have h2 : r.toBar = a := by rw [hhead]
        rw [← h2, hrb]
      rw [hhead]
      show last a.ts_code = none
      rw [hab, hlast]
    · have hbt : b ∈ t := by
        have h2 := toBar_mem_of_mem_shiftPrev htail
        rwa [hrb] at h2
      by_cases hac : a.ts_code = b.ts_code
      · rcases hmin a (by simp) hac with hab | hlt
        · exfalso
          rw [hab, List.count_cons_self] at hcount
          have hz : t.count b = 0 := by omega
          exact (List.count_eq_zero.mp hz) hbt
        · exfalso
          have hax : barLEr a b := (List.sorted_cons.mp hs).1 b hbt
          have hle : a.trade_date ≤ b.trade_date := (barLEr_same_code hac).mp hax
          omega
      · apply shiftPrev_prev_none_of_min t _ _ hs.of_cons _ _ r htail hrb
        · show (if b.ts_code = a.ts_code then some a.close else last b.ts_code) = none
          rw [if_neg (fun h => hac h.symm), hlast]
        · exact le_trans (List.count_le_count_cons b a t) hcount
        · exact fun x hx hxc => hmin x (by simp [hx]) hxc

theorem first_bar_core {l : List Bar} {b : Bar}
    (hcount : l.count b ≤ 1)
    (hmin : ∀ x ∈ l, x.ts_code = b.ts_code → x = b ∨ b.trade_date < x.trade_date) :
    ∀ s ∈ calculate_limit_price l, s.toBar = b →
      s.prev_close = none ∧ s.limit_price = none := by
  intro s hs hsb
  unfold calculate_limit_price at hs
  rcases List.mem_map.mp hs with ⟨row, hrow, hmk⟩
  have hperm := List.perm_insertionSort barLEr l
  have hsorted : (sort_values l).Sorted barLEr := List.sorted_insertionSort barLEr l
  have hcount' : (sort_values l).count b ≤ 1 := by
    unfold sort_values
    rw [hperm.count_eq]
    exact hcount
  have hmin' : ∀ x ∈ sort_values l, x.ts_code = b.ts_code →
      x = b ∨ b.trade_date < x.trade_date := by
    intro x hx
    exact hmin x (hperm.mem_iff.mp hx)
  have hrowb : row.toBar = b := by
    rw [← hmk] at hsb
    exact hsb
  have hprev : row.prev_close = none :=
    shiftPrev_prev_none_of_min (sort_values l) (fun _ => none) rfl hsorted hcount' hmin'
      row hrow hrowb
  constructor
  · rw [← hmk]
    exact hprev
  · rw [← hmk]
    show calc_limit_price row = none
    unfold calc_limit_price
    rw [hprev]

theorem shiftPrev_nodup_none :
    ∀ (l : List Bar) (last : String → Option ℤ),
      (l.map (fun b => b.ts_code)).Nodup →
      (∀ b ∈ l, last b.ts_code = none) →
      ∀ r ∈ shiftPrev last l, r.prev_close = none
  | [], _, _, _ => by
    intro r hr
    simp [shiftPrev] at hr
  | a :: t, last, hnd, hlast => by
    intro r hr
    rw [shiftPrev] at hr
    rcases List.mem_cons.mp hr with hhead | htail
    · rw [hhead]
      exact hlast a (by simp)
    · rw [List.map_cons] at hnd
      have hnd2 := List.nodup_cons.mp hnd
      apply shiftPrev_nodup_none t _ hnd2.2 _ r htail
      intro x hx
      have hxa : x.ts_code ≠ a.ts_code := by
        intro h
        exact hnd2.1 (h ▸ List.mem_map_of_mem (fun b => b.ts_code) hx)
      show (if x.ts_code = a.ts_code then some a.close else last x.ts_code) = none
      rw [if_neg hxa]
      exact hlast x (by simp [hx])

/-! ## The rounding bridge: integer cents versus `round(x, 2)` over `ℚ` -/

theorem roundHalfEvenQ_div (n d : ℤ) (hd : 0 < d) :
    roundHalfEvenQ ((n : ℚ) / (d : ℚ)) = roundHalfEvenDiv n d := by
  have hdQ : (0 : ℚ) < (d : ℚ) := by exact_mod_cast hd
  have hmod := Int.emod_nonneg n (ne_of_gt hd)
  have hmlt := Int.emod_lt_of_pos n hd
  have hdm := Int.ediv_add_emod n d
  have hdmQ : (d : ℚ) * ((n / d : ℤ) : ℚ) + ((n % d : ℤ) : ℚ) = (n : ℚ) := by
    exact_mod_cast hdm
  have hfloor : ⌊(n : ℚ) / (d : ℚ)⌋ = n / d := by
    rw [Int.floor_eq_iff]
    constructor
    · rw [le_div_iff hdQ]
      have hmQ : (0 : ℚ) ≤ ((n % d : ℤ) : ℚ) := by exact_mod_cast hmod
      nlinarith [hdmQ, hmQ]
    · rw [div_lt_iff hdQ]
      have hmQ : ((n % d : ℤ) : ℚ) < (d : ℚ) := by exact_mod_cast hmlt
      push_cast
      nlinarith [hdmQ, hmQ]
  have hfrac : (n : ℚ) / d - ((n / d : ℤ) : ℚ) = ((n % d : ℤ) : ℚ) / d := by
    field_simp
    linarith [hdmQ]
  have hA : ((n % d : ℤ) : ℚ) / d < 1 / 2 ↔ 2 * (n % d) < d := by
    rw [div_lt_iff hdQ]
    constructor
    · intro h
      have h2 : ((2 * (n % d) : ℤ) : ℚ) < (d : ℚ) := by push_cast; linarith
      exact_mod_cast h2
    · intro h
      have h2 : ((2 * (n % d) : ℤ) : ℚ) < (d : ℚ) := by exact_mod_cast h
      push_cast at h2
      linarith
  have hB : (1 / 2 : ℚ) < ((n % d : ℤ) : ℚ) / d ↔ d < 2 * (n % d) := by
    rw [lt_div_iff hdQ]
    constructor
    · intro h
      have h2 : (d : ℚ) < ((2 * (n % d) : ℤ) : ℚ) := by push_cast; linarith
      exact_mod_cast h2
    · intro h
      have h2 : (d : ℚ) < ((2 * (n % d) : ℤ) : ℚ) := by exact_mod_cast h
      push_cast at h2
      linarith
  unfold roundHalfEvenQ roundHalfEvenDiv
  rw [hfloor, hfrac]
  simp only [hA, hB]

/-- The rate the source selects, read back at the yuan level, is exactly
100 times the spec's `rate_for` of the spec's classifier.  Shared by the
board-classification and limit-price claims. -/
theorem rate_agree (s : String) :
    (limit_rate_pct (get_stock_type s) : ℚ) = 100 * rate_for (specClassify s) := by
  unfold get_stock_type specClassify
  split_ifs <;> simp [limit_rate_pct, rate_for] <;> norm_num

/-! ## Claim theorems -/

/-- C1: for every bar with a defined LimitPrice, the bar qualifies as a
limit event iff `high ≥ LimitPrice` or `close ≥ LimitPrice`; among
qualifying bars, `close ≥ LimitPrice` gives SEALED ("封死涨停"), otherwise
BROKEN ("炸板"); non-qualifying bars are NONE (they never reach the output,
so every output row qualifies).  Boundary: with `prev_close = 10.00` on the
MAIN board (LimitPrice 11.00), `close = 11.00` gives SEALED,
`high = 11.00, close = 10.95` gives BROKEN, and `high = 10.99` gives
NONE. -/
theorem limit_event_dual_threshold :
    (∀ (row : BarLimit) (lp : ℤ), row.limit_price = some lp →
        (limit_conditions row = true ↔ (row.high ≥ lp ∨ row.close ≥ lp)) ∧
          (classify_limit row = "封死涨停" ↔ row.close ≥ lp) ∧
          (classify_limit row = "炸板" ↔ ¬ row.close ≥ lp)) ∧
    (∀ (bars : List Bar) (r : LimitRow), r ∈ identify_limit_stocks bars →
        ∃ lp, r.limit_price = some lp ∧ (r.high ≥ lp ∨ r.close ≥ lp)) ∧
    identify_limit_stocks [exBase, exSealedBar] = [exSealedRow] ∧
    identify_limit_stocks [exBase, exBrokenBar] = [exBrokenRow] ∧
    identify_limit_stocks [exBase, exNoneBar] = [] := by
  refine ⟨?_, ?_, by decide, by decide, by decide⟩
  · intro row lp hlp
    refine ⟨?_, ?_, ?_⟩
    · unfold limit_conditions
      rw [hlp]
      simp
    · unfold classify_limit
      rw [hlp]
      by_cases h : row.close ≥ lp
      · simp [h]
      · simp [h, show ("炸板" : String) ≠ "封死涨停" by decide]
    · unfold classify_limit
      rw [hlp]
      by_cases h : row.close ≥ lp
      · simp [h, show ("封死涨停" : String) ≠ "炸板" by decide]
      · simp [h]
  · intro bars r hr
    rcases mem_identify hr with ⟨s, hs, hcond, hrs⟩
    unfold limit_conditions at hcond
    cases hlp : s.limit_price with
    | none => rw [hlp] at hcond; cases hcond
    | some lp =>
      rw [hlp] at hcond
      refine ⟨lp, ?_, ?_⟩
      · rw [hrs]
        exact hlp
      · rw [hrs]
        show s.high ≥ lp ∨ s.close ≥ lp
        simpa using hcond

/-- C1 witness: the classification rule and the output-qualification fact
applied at the concrete sealed boundary example. -/
theorem limit_event_dual_threshold_witness :
    (limit_conditions exRow2 = true ↔ (exRow2.high ≥ 1100 ∨ exRow2.close ≥ 1100)) ∧
    ∃ lp, exSealedRow.limit_price = some lp ∧
      (exSealedRow.high ≥ lp ∨ exSealedRow.close ≥ lp) :=
  ⟨(limit_event_dual_threshold.1 exRow2 1100 rfl).1,
   limit_event_dual_threshold.2.1 [exBase, exSealedBar] exSealedRow (by decide)⟩

/-- C2: for every bar whose `prev_close` is defined, the computed
LimitPrice equals `round(prev_close * (1 + rate), 2)` with the board rate
of the bar's instrument, under the half-to-even rounding rule (stated over
`ℚ` at the yuan level: cents divided by 100); for a bar without
`prev_close` the LimitPrice is absent.  Examples: instrument `688001`
(STAR) with `prev_close = 50.00` yields 60.00, and `831010` (NEEQ) with
`prev_close = 20.00` yields 26.00. -/
theorem limit_price_formula :
    (∀ (bars : List Bar), ∀ row ∈ calculate_limit_price bars,
        (row.prev_close = none → row.limit_price = none) ∧
        ∀ pc, row.prev_close = some pc →
          ∃ lp, row.limit_price = some lp ∧
            (lp : ℚ) / 100 =
              round2Q ((pc : ℚ) / 100 * (1 + rate_for (specClassify row.ts_code)))) ∧
    calc_limit_price exStarPrev = some 6000 ∧
    calc_limit_price exNeeqPrev = some 2600 := by
  refine ⟨?_, by decide, by decide⟩
  intro bars row hrow
  have hcalc := (mem_calculate_limit_price hrow).2
  constructor
  · intro hnone
    rw [hcalc]
    unfold calc_limit_price
    rw [hnone]
  · intro pc hpc
    rw [hcalc]
    unfold calc_limit_price
    rw [hpc]
    refine ⟨_, rfl, ?_⟩
    unfold round2Q
    rw [← roundHalfEvenQ_div (pc * (100 + limit_rate_pct (get_stock_type row.ts_code))) 100
        (by norm_num)]
    have harg : ((pc * (100 + limit_rate_pct (get_stock_type row.ts_code)) : ℤ) : ℚ) / 100 =
        100 * ((pc : ℚ) / 100 * (1 + rate_for (specClassify row.ts_code))) := by
      have hr := rate_agree row.ts_code
      push_cast
      rw [hr]
      ring
    rw [show ((100 : ℤ) : ℚ) = (100 : ℚ) by norm_num, harg]

/-- C2 witness: the formula applied at the decorated day-2 row of the
two-bar example batch. -/
theorem limit_price_formula_witness :
    ∃ lp, exRow2.limit_price = some lp ∧
      (lp : ℚ) / 100 =
        round2Q ((1000 : ℚ) / 100 * (1 + rate_for (specClassify exRow2.ts_code))) :=
  (limit_price_formula.1 [exBase, exSealedBar] exRow2 (by decide)).2 1000 rfl

/-- C3: the board classification is total and deterministic, refines the
spec's four-category classifier with its fixed rates (`688`/`689` ↦ STAR
0.20, `300` ↦ CHINEXT 0.20, the enumerated NEEQ set ↦ 0.30, everything
else ↦ MAIN 0.10, with unrecognized prefixes silently falling back to
MAIN), and always yields one of the four type names. -/
theorem board_classification_total :
    ∀ id : String,
      get_stock_type id = boardName (specClassify id) ∧
      (limit_rate_pct (get_stock_type id) : ℚ) / 100 = rate_for (specClassify id) ∧
      (get_stock_type id = "kcb" ∨ get_stock_type id = "cyb" ∨
        get_stock_type id = "bse" ∨ get_stock_type id = "main") := by
  intro id
  refine ⟨?_, ?_, ?_⟩
  · unfold get_stock_type specClassify
    split_ifs <;> rfl
  · rw [rate_agree id]
    ring
  · unfold get_stock_type
    split_ifs <;> simp

/-- C4 counterexample: `dupBatch` holds the same instrument's day-2 bar at
positions 1 and 2 — two bars with the same identifier and the same
`trade_date` — yet the engine raises nothing and emits a classification
row, refuting the claim that such a batch is rejected with no results. -/
theorem duplicate_dates_not_rejected :
    dupBatch[1]? = some exSealedBar ∧ dupBatch[2]? = some exSealedBar ∧
    identify_limit_stocks dupBatch = [exSealedRow] := by
  decide

/-- C4 amended: the engine performs no duplicate-date validation.  It
sorts and silently computes the `prev_close` shift across the duplicated
dates — the later duplicate takes the earlier duplicate's close (11.00) as
its `prev_close`, giving it limit price 12.10 — and classification results
are emitted for the batch. -/
theorem duplicate_dates_silent_shift :
    calculate_limit_price dupBatch =
      [{ toBar := exBase, prev_close := none, limit_price := none },
       { toBar := exSealedBar, prev_close := some 1000, limit_price := some 1100 },
       { toBar := exSealedBar, prev_close := some 1100, limit_price := some 1210 }] ∧
    identify_limit_stocks dupBatch = [exSealedRow] := by
  decide

/-- C5 counterexample: a batch with one non-excluded bar classified NONE
produces an empty output, not one row per non-excluded bar. -/
theorem none_rows_dropped :
    ([exBase].filter (fun b => !containsST b.ts_code)).length = 1 ∧
    identify_limit_stocks [exBase] = [] := by
  decide

/-- C5 amended: the engine computes one decorated row per non-excluded
input bar, but the classification output keeps exactly the qualifying
rows (bars classified NONE are dropped); each emitted row carries
`{instrument, trade_date, open, close, high, low, LimitPrice, LimitEvent}`
copied from a non-excluded input bar that satisfies the limit
condition. -/
theorem output_rows_are_qualifying_bars :
    (∀ bars : List Bar,
        (calculate_limit_price (bars.filter (fun b => !containsST b.ts_code))).length =
          (bars.filter (fun b => !containsST b.ts_code)).length) ∧
    (∀ bars : List Bar,
        (identify_limit_stocks bars).length =
          ((calculate_limit_price (bars.filter (fun b => !containsST b.ts_code))).filter
              limit_conditions).length) ∧
    ∀ (bars : List Bar) (r : LimitRow), r ∈ identify_limit_stocks bars →
      ∃ b ∈ bars, containsST b.ts_code = false ∧ r.ts_code = b.ts_code ∧
        r.trade_date = b.trade_date ∧ r.open_ = b.open_ ∧ r.close = b.close ∧
        r.high = b.high ∧ r.low = b.low ∧
        ∃ lp, r.limit_price = some lp ∧ (b.high ≥ lp ∨ b.close ≥ lp) := by
  refine ⟨?_, ?_, ?_⟩
  · intro bars
    unfold calculate_limit_price sort_values
    rw [List.length_map, length_shiftPrev, List.length_insertionSort]
  · intro bars
    unfold identify_limit_stocks
    rw [List.length_map]
  · intro bars r hr
    rcases mem_identify hr with ⟨s, hs, hcond, hrs⟩
    have hmem := (mem_calculate_limit_price hs).1
    refine ⟨s.toBar, List.mem_of_mem_filter hmem, ?_, ?_, ?_, ?_, ?_, ?_, ?_, ?_⟩
    · have hst := (List.mem_filter.mp hmem).2
      simpa using hst
    · rw [hrs]; rfl
    · rw [hrs]; rfl
    · rw [hrs]; rfl
    · rw [hrs]; rfl
    · rw [hrs]; rfl
    · rw [hrs]; rfl
    · unfold limit_conditions at hcond
      cases hlp : s.limit_price with
      | none => rw [hlp] at hcond; cases hcond
      | some lp =>
        rw [hlp] at hcond
        refine ⟨lp, ?_, ?_⟩
        · rw [hrs]; exact hlp
        · show s.toBar.high ≥ lp ∨ s.toBar.close ≥ lp
          simpa using hcond

/-- C5 witness: the correspondence applied at the sealed example batch and
its single output row. -/
theorem output_rows_are_qualifying_bars_witness :
    ∃ b ∈ [exBase, exSealedBar], containsST b.ts_code = false ∧
      exSealedRow.ts_code = b.ts_code ∧ exSealedRow.trade_date = b.trade_date ∧
      exSealedRow.open_ = b.open_ ∧ exSealedRow.close = b.close ∧
      exSealedRow.high = b.high ∧ exSealedRow.low = b.low ∧
      ∃ lp, exSealedRow.limit_price = some lp ∧ (b.high ≥ lp ∨ b.close ≥ lp) :=
  output_rows_are_qualifying_bars.2.2 [exBase, exSealedBar] exSealedRow (by decide)

/-- C6 counterexample: on the two-day panel, classifying the whole panel
and filtering to day 2 yields the sealed event row, while the single-date
entry point (filter first, then classify) yields the empty table — the two
orders of operation disagree. -/
theorem filter_then_classify_differs :
    analyze_specific_date [exBase, exSealedBar] 2 = [] ∧
    (identify_limit_stocks [exBase, exSealedBar]).filter
        (fun r => decide (r.trade_date = 2)) = [exSealedRow] := by
  decide

/-- C6 amended: `analyze_specific_date` classifies only the rows of the
requested date, so the `prev_close` shift is computed inside the one-date
slice; whenever the instruments on that date are pairwise distinct, every
sliced bar is the first of its series, `prev_close` and LimitPrice are
absent, and the result is always empty — not the full-panel event table
filtered to that date. -/
theorem analyze_specific_date_empty :
    ∀ (df : List Bar) (d : ℕ),
      ((df.filter (fun b => decide (b.trade_date = d))).map (fun b => b.ts_code)).Nodup →
      analyze_specific_date df d = [] := by
  intro df d hnd
  unfold analyze_specific_date identify_limit_stocks
  have hnd2 : (((df.filter (fun b => decide (b.trade_date = d))).filter
      (fun b => !containsST b.ts_code)).map (fun b => b.ts_code)).Nodup :=
    hnd.sublist (List.Sublist.map _ (List.filter_sublist _))
  have hnd3 : ((sort_values ((df.filter (fun b => decide (b.trade_date = d))).filter
      (fun b => !containsST b.ts_code))).map (fun b => b.ts_code)).Nodup := by
    unfold sort_values
    have hperm := (List.perm_insertionSort barLEr
      ((df.filter (fun b => decide (b.trade_date = d))).filter
        (fun b => !containsST b.ts_code))).map (fun b => b.ts_code)
    exact hperm.nodup_iff.mpr hnd2
  have hall : ∀ s ∈ calculate_limit_price
      ((df.filter (fun b => decide (b.trade_date = d))).filter
        (fun b => !containsST b.ts_code)), limit_conditions s = false := by
    intro s hs
    unfold calculate_limit_price at hs
    rcases List.mem_map.mp hs with ⟨row, hrow, hmk⟩
    have hprev : row.prev_close = none :=
      shiftPrev_nodup_none _ _ hnd3 (fun b _ => rfl) row hrow
    unfold limit_conditions
    rw [← hmk]
    show (match calc_limit_price row with
      | none => false
      | some lp => decide (row.high ≥ lp) || decide (row.close ≥ lp)) = false
    unfold calc_limit_price
    rw [hprev]
  rw [List.filter_eq_nil_iff.mpr (by intro a ha; rw [hall a ha]; simp)]
  rfl

/-- C6 witness: the amended statement applied to a one-date panel holding
two distinct instruments. -/
theorem analyze_specific_date_empty_witness :
    analyze_specific_date twoCodes 5 = [] :=
  analyze_specific_date_empty twoCodes 5 (by decide)

/-- C9 counterexample: `negBatch` contains a bar with a non-positive
(`-5.00`) price, yet the engine emits classification output instead of
failing the batch. -/
theorem invalid_price_not_rejected :
    negBatch.any (fun b => decide (b.low ≤ 0)) = true ∧
    identify_limit_stocks negBatch ≠ [] := by
  decide

/-- C9 amended: the engine performs no value validation: a batch
containing a non-positive price is processed by the ordinary formulas and
classification output is emitted (the I/O wrapper only prints and returns
on a missing column; no `InputSchemaError`/`InvalidValueError` exists). -/
theorem invalid_price_processed :
    negBatch.any (fun b => decide (b.low ≤ 0)) = true ∧
    identify_limit_stocks negBatch = [exSealedRow] := by
  decide

/-- C7: rows of instruments matching the ST exclusion never appear in the
classification output at all (in particular never as SEALED or BROKEN),
and for a non-excluded instrument the engine's computed per-bar series —
`prev_close` and LimitPrice — is identical whether or not the excluded
rows are present in the batch.  Because the exclusion is keyed on the
instrument identifier, the `prev_close` of every non-excluded bar is the
close of its immediately preceding bar computed over the full input,
excluded bars included. -/
theorem st_exclusion_and_prev_close :
    (∀ (bars : List Bar) (r : LimitRow), r ∈ identify_limit_stocks bars →
        containsST r.ts_code = false) ∧
    ∀ (bars : List Bar) (c : String), containsST c = false →
      (calculate_limit_price (bars.filter (fun b => !containsST b.ts_code))).filter
          (fun r => decide (r.ts_code = c)) =
        (calculate_limit_price bars).filter (fun r => decide (r.ts_code = c)) := by
  constructor
  · intro bars r hr
    rcases mem_identify hr with ⟨s, hs, hcond, hrs⟩
    have hmem := (mem_calculate_limit_price hs).1
    have hst := (List.mem_filter.mp hmem).2
    rw [hrs]
    show containsST s.toBar.ts_code = false
    simpa using hst
  · intro bars c hc
    unfold calculate_limit_price
    rw [List.filter_map, List.filter_map]
    have hcomp : ∀ S : List BarPrev,
        S.filter ((fun r : BarLimit => decide (r.ts_code = c)) ∘
          (fun row => { toBarPrev := row, limit_price := calc_limit_price row })) =
          S.filter (fun row : BarPrev => decide (row.ts_code = c)) := by
      intro S
      apply List.filter_congr
      intro x hx
      rfl
    rw [hcomp, hcomp]
    apply congrArg
    rw [shiftPrev_filter_code, shiftPrev_filter_code]
    apply congrArg
    unfold sort_values
    rw [filter_insertionSort, filter_insertionSort]
    apply congrArg
    rw [List.filter_filter]
    apply List.filter_congr
    intro x hx
    by_cases hxc : x.ts_code = c
    · simp [hxc, hc]
    · simp [hxc]

/-- C7 witness: the exclusion fact at the sealed example output row, and
the series equality for instrument `000001` on a batch that also contains
an ST security. -/
theorem st_exclusion_and_prev_close_witness :
    containsST exSealedRow.ts_code = false ∧
    (calculate_limit_price ([stBar, exBase, exSealedBar].filter
        (fun b => !containsST b.ts_code))).filter
        (fun r => decide (r.ts_code = "000001")) =
      (calculate_limit_price [stBar, exBase, exSealedBar]).filter
        (fun r => decide (r.ts_code = "000001")) :=
  ⟨st_exclusion_and_prev_close.1 [exBase, exSealedBar] exSealedRow (by decide),
   st_exclusion_and_prev_close.2 [stBar, exBase, exSealedBar] "000001" (by decide)⟩

/-- C8: a bar that occurs once in the batch and strictly precedes every
other bar of its instrument has absent `prev_close` and absent LimitPrice
in the computed series, and the classification output never reports that
first bar — every output row of its instrument is strictly later. -/
theorem first_bar_absent_prev_close :
    ∀ (bars : List Bar) (b : Bar), b ∈ bars → bars.count b = 1 →
      (∀ x ∈ bars, x.ts_code = b.ts_code → x = b ∨ b.trade_date < x.trade_date) →
      (∀ s ∈ calculate_limit_price bars, s.toBar = b →
          s.prev_close = none ∧ s.limit_price = none) ∧
      ∀ r ∈ identify_limit_stocks bars, r.ts_code = b.ts_code →
        b.trade_date < r.trade_date := by
  intro bars b hmem hcount hmin
  constructor
  · exact first_bar_core (le_of_eq hcount) hmin
  · intro r hr hcode
    rcases mem_identify hr with ⟨s, hs, hcond, hrs⟩
    have hsbar := (mem_calculate_limit_price hs).1
    have hsbars : s.toBar ∈ bars := List.mem_of_mem_filter hsbar
    have hscode : s.toBar.ts_code = b.ts_code := by
      rw [hrs] at hcode
      exact hcode
    rcases hmin s.toBar hsbars hscode with hsb | hlt
    · exfalso
      have hfcount : (bars.filter (fun b2 => !containsST b2.ts_code)).count b ≤ 1 := by
        calc (bars.filter (fun b2 => !containsST b2.ts_code)).count b
            ≤ bars.count b := (List.filter_sublist bars).count_le b
          _ = 1 := hcount
      have hminf : ∀ x ∈ bars.filter (fun b2 => !containsST b2.ts_code),
          x.ts_code = b.ts_code → x = b ∨ b.trade_date < x.trade_date :=
        fun x hx hxc => hmin x (List.mem_of_mem_filter hx) hxc
      have hnone := (first_bar_core hfcount hminf s hs hsb).2
      unfold limit_conditions at hcond
      rw [hnone] at hcond
      cases hcond
    · rw [hrs]
      exact hlt

/-- C8 witness: the first-bar facts applied to the two-bar example batch
and the first bar `exBase`. -/
theorem first_bar_absent_prev_close_witness :
    (exRow1.prev_close = none ∧ exRow1.limit_price = none) ∧
    exBase.trade_date < exSealedRow.trade_date :=
  ⟨(first_bar_absent_prev_close [exBase, exSealedBar] exBase (by decide) (by decide)
      (by decide)).1 exRow1 (by decide) rfl,
   (first_bar_absent_prev_close [exBase, exSealedBar] exBase (by decide) (by decide)
      (by decide)).2 exSealedRow (by decide) rfl⟩

theorem getFrame_concat (h : List PFrame) (f : PFrame) :
    getFrame (h ++ [f]) h.length = f := by
  simp [getFrame, List.getElem?_concat_length]

theorem set_concat (A : List PFrame) (x y : PFrame) :
    (A ++ [x]).set A.length y = A ++ [y] := by
  induction A with
  | nil => rfl
  | cons a t ih => simp [List.set, ih]

theorem getElem?_concat_lt {A : List PFrame} {j : ℕ} (x : PFrame) (hj : j < A.length) :
    (A ++ [x])[j]? = A[j]? := List.getElem?_append_left hj

theorem prog_eq (input : ℕ) (h : List PFrame) :
    identify_limit_stocksProg input h =
      (h.length + 3,
        ((h ++ [maskNotST (getFrame h input)]) ++
            [assignLimitPrice (assignPrevClose (sortValuesF (maskNotST (getFrame h input))))]) ++
          [assignLimitType (maskLimitCopy (assignLimitPrice (assignPrevClose
              (sortValuesF (maskNotST (getFrame h input))))))] ++
          [selectResultColumns (assignLimitType (maskLimitCopy (assignLimitPrice
              (assignPrevClose (sortValuesF (maskNotST (getFrame h input)))))))]) := by
  simp only [identify_limit_stocksProg, halloc, hwrite]
  simp only [getFrame_concat, set_concat]
  simp [List.length_append]

/-- C10: the pipeline never mutates the caller's frames.  Run over the
frame heap, every pre-existing heap cell — in particular the caller's
input panel — is unchanged after `identify_limit_stocks`; the exclusion
mask, the sort, and the `prev_close`/`limit_price`/`limit_type` column
assignments all happen on freshly allocated frames, and the returned
reference holds exactly the pure `identify_limit_stocks` of the input
rows. -/
theorem pipeline_does_not_mutate_input :
    ∀ (h : List PFrame) (input : ℕ),
      (∀ j, j < h.length → ((identify_limit_stocksProg input h).2)[j]? = h[j]?) ∧
      ∀ rows, getFrame h input = PFrame.raw rows →
        getFrame (identify_limit_stocksProg input h).2 (identify_limit_stocksProg input h).1 =
          PFrame.table (identify_limit_stocks rows) := by
  intro h input
  constructor
  · intro j hj
    rw [prog_eq]
    rw [getElem?_concat_lt _ (by simp; omega)]
    rw [getElem?_concat_lt _ (by simp; omega)]
    rw [getElem?_concat_lt _ (by simp; omega)]
    rw [getElem?_concat_lt _ hj]
  · intro rows hrows
    rw [prog_eq]
    rw [show h.length + 3 =
        (((h ++ [maskNotST (getFrame h input)]) ++
            [assignLimitPrice (assignPrevClose (sortValuesF (maskNotST (getFrame h input))))]) ++
          [assignLimitType (maskLimitCopy (assignLimitPrice (assignPrevClose
              (sortValuesF (maskNotST (getFrame h input))))))]).length from by simp]
    rw [getFrame_concat]
    rw [hrows]
    simp only [maskNotST, sortValuesF, assignPrevClose, assignLimitPrice, maskLimitCopy,
      assignLimitType, selectResultColumns, List.map_map]
    unfold identify_limit_stocks calculate_limit_price mkLimitRow
    rfl

/-- C10 witness: a one-frame heap holding the example panel; the stored
panel is untouched and the returned frame is the pure classification. -/
theorem pipeline_does_not_mutate_input_witness :
    ((identify_limit_stocksProg 0 c10Heap).2)[0]? = c10Heap[0]? ∧
    getFrame (identify_limit_stocksProg 0 c10Heap).2 (identify_limit_stocksProg 0 c10Heap).1 =
      PFrame.table (identify_limit_stocks [exBase, exSealedBar]) :=
  ⟨(pipeline_does_not_mutate_input c10Heap 0).1 0 (by decide),
   (pipeline_does_not_mutate_input c10Heap 0).2 [exBase, exSealedBar] rfl⟩
